import Mathlib

/-!
Shallow embedding of `todo-swamp-rust` (`src/todo_list.rs`), together with a
spec-derived model of the trie index (`trie.rs` is referenced by the source but
not present; it is modelled from the design document, §4.1).

Strings are modelled as `List Char`; the `u64` identifier counter is modelled
as `Nat` (the code only ever increments it by one from zero).
-/

set_option maxHeartbeats 1000000

abbrev Str := List Char

/-- Embedding of `TodoItem` from `src/todo_list.rs`: an index (`Index(u64)`
unwrapped to `Nat`), a description (vector of words), tags, and a done flag. -/
structure TodoItem where
  index : Nat
  description : List Str
  tags : List Str
  done : Bool
deriving DecidableEq, Repr

instance : Inhabited TodoItem := ⟨⟨0, [], [], false⟩⟩

/-- Embedding of `SearchWordOrTag` from `src/todo_list.rs`. -/
inductive SearchWordOrTag where
  | RawWord (s : Str)
  | RawTag (s : Str)
deriving DecidableEq, Repr

/-- Modelled from the spec: `SearchParams` lives in the absent `query.rs`; the
spec (§6) and the uses in `todo_list.rs` (`sp.params.len()`, `sp.params.iter()`)
determine it as an ordered list of typed terms. -/
structure SearchParams where
  params : List SearchWordOrTag
deriving DecidableEq, Repr

/-- Modelled from the spec: `Trie1` lives in the absent `trie.rs`. Per §4.1 a
trie node reached by prefix `P` carries exactly the identifiers for which some
indexed string beginning with `P` was inserted and not since deleted
(invariant 2), so the trie is modelled extensionally as the list of live
`(identifier, key)` insertions. -/
abbrev Trie1 := List (Nat × Str)

/-- Modelled from the spec: `Trie1::new` creates an empty trie. -/
def Trie1.new : Trie1 := []

/-- Modelled from the spec (§4.1): `add(identifier, key)` inserts the
identifier at every node along `key`; extensionally, the pair becomes live. -/
def Trie1.add (t : Trie1) (id : Nat) (key : Str) : Trie1 :=
  (id, key) :: t

/-- Modelled from the spec (§4.1): `delete(identifier)` removes the identifier
from every node it was ever inserted into, across all keys. -/
def Trie1.delete (t : Trie1) (id : Nat) : Trie1 :=
  t.filter (fun p => p.1 ≠ id)

/-- Modelled from the spec (§4.1): `search(key)` walks `key` from the root and
returns the identifier set at the reached node — a prefix match: every
identifier having some live indexed string that begins with `key`; an empty
set when no such string exists (missing edge). -/
def Trie1.search (t : Trie1) (key : Str) : Finset Nat :=
  ((t.filter (fun p => decide (key <+: p.2))).map Prod.fst).toFinset

/-- Embedding of `TodoList` from `src/todo_list.rs`. -/
structure TodoList where
  top_index : Nat
  items : List TodoItem
deriving DecidableEq, Repr

/-- Embedding of `TodoList::new`. -/
def TodoList.new : TodoList :=
  { top_index := 0, items := [] }

/-- Embedding of `TodoList::push`: build the item with the current counter and
`done = false`, append it, advance the counter, return the item. -/
def TodoList.push (tl : TodoList) (description : List Str) (tags : List Str) :
    TodoList × TodoItem :=
  let item : TodoItem :=
    { index := tl.top_index, description := description, tags := tags, done := false }
  ({ top_index := tl.top_index + 1, items := tl.items ++ [item] }, item)

/-- Embedding of the loop of `slice::binary_search_by_key` (compare the key at
`mid = left + (right - left) / 2` with the target, halve, return `Ok(mid)` on
equality, `Err` when the window closes). The loop shrinks `right - left` on
every iteration, so running it with fuel `items.length ≥ right - left` is
exactly the Rust loop; the fuel only makes the recursion structural. -/
def bsLoop (items : List TodoItem) (target : Nat) : Nat → Nat → Nat → Option Nat
  | 0, _, _ => none
  | fuel + 1, left, right =>
    if left < right then
      let mid := left + (right - left) / 2
      let key := (items.getD mid default).index
      if key < target then bsLoop items target fuel (mid + 1) right
      else if target < key then bsLoop items target fuel left mid
      else some mid
    else none

/-- Embedding of `self.items.binary_search_by_key(&idx, |item| item.index)`;
`some n` is `Ok(n)`, `none` is `Err(_)` (the code never uses the `Err` value). -/
def binary_search_by_key (items : List TodoItem) (target : Nat) : Option Nat :=
  bsLoop items target items.length 0 items.length

/-- Embedding of `self.items[n].done = true`. -/
def setDone (items : List TodoItem) (n : Nat) : List TodoItem :=
  items.set n { items.getD n default with done := true }

/-- Embedding of `TodoList::done_with_index`: binary-search the identifier,
set the done flag and return `Some(idx)` on a hit, return `None` on a miss. -/
def TodoList.done_with_index (tl : TodoList) (idx : Nat) : TodoList × Option Nat :=
  match binary_search_by_key tl.items idx with
  | some n => ({ tl with items := setDone tl.items n }, some idx)
  | none => (tl, none)

/-- Embedding of the inner loop of `match_subsequence`: scan the bytes of the
sequence; on a byte equal to `sub[i]` advance `i`, returning true the moment
`i` reaches `l`; return false when the sequence is exhausted. -/
def msLoop (sub : Str) (l : Nat) : Str → Nat → Bool
  | [], _ => false
  | b :: rest, i =>
    if b = sub.getD i default then
      if i + 1 = l then true else msLoop sub l rest (i + 1)
    else msLoop sub l rest i

/-- Embedding of `match_subsequence` from `src/todo_list.rs`: true when
`subsequence` is a (not necessarily contiguous) subsequence of `sequence`;
an empty subsequence returns true immediately. -/
def match_subsequence (sequence : Str) (subsequence : Str) : Bool :=
  let l := subsequence.length
  if l = 0 then true
  else msLoop subsequence l sequence 0

/-- Instrumented variant of `msLoop` in which the unchecked access
`sub.get_unchecked(i)` is replaced by the checked `sub.get? i`, returning
`none` the moment an out-of-bounds access would occur. -/
def msLoopChecked (sub : Str) (l : Nat) : Str → Nat → Option Bool
  | [], _ => some false
  | b :: rest, i =>
    match sub.get? i with
    | none => none
    | some c =>
      if b = c then
        if i + 1 = l then some true else msLoopChecked sub l rest (i + 1)
      else msLoopChecked sub l rest i

/-- Instrumented variant of `match_subsequence` with checked indexing. -/
def match_subsequence_checked (sequence : Str) (subsequence : Str) : Option Bool :=
  let l := subsequence.length
  if l = 0 then some true
  else msLoopChecked subsequence l sequence 0

/-- Embedding of one search parameter test in `TodoList::search`: a word term
must subsequence-match some word of the description, a tag term some tag. -/
def itemMatches (item : TodoItem) (p : SearchWordOrTag) : Bool :=
  match p with
  | SearchWordOrTag.RawWord sw => item.description.any (fun w => match_subsequence w sw)
  | SearchWordOrTag.RawTag st => item.tags.any (fun t => match_subsequence t st)

/-- Embedding of `TodoList::search`: keep, in order, every not-done item that
matches every search parameter (the labelled `continue` structure of the Rust
loops is exactly this filter). -/
def TodoList.search (tl : TodoList) (sp : SearchParams) : List TodoItem :=
  tl.items.filter (fun item => !item.done && sp.params.all (fun p => itemMatches item p))

/-- Embedding of `TriedoList` from `src/todo_list.rs`: the plain list plus a
word trie and a tag trie. -/
structure TriedoList where
  top_index : Nat
  items : List TodoItem
  words : Trie1
  tags : Trie1
deriving DecidableEq, Repr

/-- Embedding of `TriedoList::new`. -/
def TriedoList.new : TriedoList :=
  { top_index := 0, items := [], words := Trie1.new, tags := Trie1.new }

/-- Embedding of `TriedoList::push`: add the current counter value to the word
trie under every word and to the tag trie under every tag, then append the new
item and advance the counter, returning the item. -/
def TriedoList.push (t : TriedoList) (description : List Str) (tags : List Str) :
    TriedoList × TodoItem :=
  let words' := description.foldl (fun tr s => tr.add t.top_index s) t.words
  let tags' := tags.foldl (fun tr s => tr.add t.top_index s) t.tags
  let item : TodoItem :=
    { index := t.top_index, description := description, tags := tags, done := false }
  ({ top_index := t.top_index + 1, items := t.items ++ [item],
     words := words', tags := tags' }, item)

/-- Embedding of `TriedoList::done_with_index`: unconditionally delete the
identifier from the word trie (the tag trie is untouched), then binary-search
the item, set its done flag and return `Some(idx)` on a hit, `None` on a miss. -/
def TriedoList.done_with_index (t : TriedoList) (idx : Nat) : TriedoList × Option Nat :=
  let words' := t.words.delete idx
  match binary_search_by_key t.items idx with
  | some n =>
    ({ t with words := words', items := setDone t.items n }, some idx)
  | none => ({ t with words := words' }, none)

/-- Embedding of the per-term lookup in `TriedoList::search`: a word term is
searched in the word trie, a tag term in the tag trie. -/
def paramSearch (t : TriedoList) (p : SearchWordOrTag) : Finset Nat :=
  match p with
  | SearchWordOrTag.RawWord w => t.words.search w
  | SearchWordOrTag.RawTag tg => t.tags.search tg

/-- Embedding of the identifier-set computation of `TriedoList::search`: empty
parameter list gives the empty set; otherwise the first term seeds the
candidate set and every further term intersects it. -/
def TriedoList.searchIds (t : TriedoList) (sp : SearchParams) : Finset Nat :=
  match sp.params with
  | [] => ∅
  | first :: rest => rest.foldl (fun indices p => indices ∩ paramSearch t p) (paramSearch t first)

/-- Embedding of `TriedoList::search`: the final identifier set materialized
through `self.items[*index as usize]` (the Rust `HashSet` iteration order is
unspecified, so the result is the set of items). -/
def TriedoList.search (t : TriedoList) (sp : SearchParams) : Finset TodoItem :=
  (t.searchIds sp).image (fun i => t.items.getD i default)

/-- Sequence of `TodoList::push` calls: the final store and the list of items
the calls returned, in call order. -/
def TodoList.pushSeq : TodoList → List (List Str × List Str) → TodoList × List TodoItem
  | tl, [] => (tl, [])
  | tl, c :: cs =>
    let r := tl.push c.1 c.2
    let rest := TodoList.pushSeq r.1 cs
    (rest.1, r.2 :: rest.2)

/-- Sequence of `TriedoList::push` calls: the final store and the list of
items the calls returned, in call order. -/
def TriedoList.pushSeq : TriedoList → List (List Str × List Str) → TriedoList × List TodoItem
  | t, [] => (t, [])
  | t, c :: cs =>
    let r := t.push c.1 c.2
    let rest := TriedoList.pushSeq r.1 cs
    (rest.1, r.2 :: rest.2)

/-- Reachable `TodoList` states: every state constructible through the public
interface (`new`, `push`, `done_with_index`; `search` takes `&self`). -/
inductive ReachableT : TodoList → Prop where
  | new : ReachableT TodoList.new
  | push (tl : TodoList) (d tg : List Str) (h : ReachableT tl) :
      ReachableT (tl.push d tg).1
  | done (tl : TodoList) (idx : Nat) (h : ReachableT tl) :
      ReachableT (tl.done_with_index idx).1

/-- Reachable `TriedoList` states: every state constructible through the
public interface. -/
inductive Reachable : TriedoList → Prop where
  | new : Reachable TriedoList.new
  | push (t : TriedoList) (d tg : List Str) (h : Reachable t) :
      Reachable (t.push d tg).1
  | done (t : TriedoList) (idx : Nat) (h : Reachable t) :
      Reachable (t.done_with_index idx).1

/-- The positional invariant of both stores: the counter equals the number of
items and the item at position `n` has identifier `n`. -/
def ItemsCanonical (top : Nat) (items : List TodoItem) : Prop :=
  top = items.length ∧ ∀ n, n < items.length → (items.getD n default).index = n

/-- Full invariant of a `TriedoList`: the positional invariant plus the fact
that every identifier living in either trie is a previously issued one. -/
def TriedoInv (t : TriedoList) : Prop :=
  ItemsCanonical t.top_index t.items ∧
    (∀ p ∈ t.words, p.1 < t.top_index) ∧ (∀ p ∈ t.tags, p.1 < t.top_index)

/-! ### Lemmas about `match_subsequence` -/

theorem msLoopChecked_eq_some (sub : Str) (seq : Str) :
    ∀ i, i < sub.length →
      msLoopChecked sub sub.length seq i = some (msLoop sub sub.length seq i) := by
  induction seq with
  | nil => intro i hi; rfl
  | cons b rest ih =>
    intro i hi
    have hg : sub.get? i = some (sub.getD i default) := by
      rw [List.getD_eq_getElem _ _ hi, List.get?_eq_getElem?, List.getElem?_eq_getElem hi]
    simp only [msLoopChecked, msLoop, hg]
    by_cases hb : b = sub.getD i default
    · simp only [if_pos hb]
      by_cases hl : i + 1 = sub.length
      · simp [hl]
      · have hi1 : i + 1 < sub.length := lt_of_le_of_ne hi hl
        simp [hl, ih (i + 1) hi1]
    · simp only [if_neg hb]
      exact ih i hi

theorem msLoop_iff_sublist (sub : Str) (seq : Str) :
    ∀ i, i < sub.length →
      (msLoop sub sub.length seq i = true ↔ List.Sublist (sub.drop i) seq) := by
  induction seq with
  | nil =>
    intro i hi
    simp only [msLoop, Bool.false_eq_true, false_iff, List.sublist_nil]
    intro hcon
    have := congrArg List.length hcon
    simp only [List.length_drop, List.length_nil] at this
    omega
  | cons b rest ih =>
    intro i hi
    have hdrop : sub.drop i = sub[i] :: sub.drop (i + 1) := List.drop_eq_getElem_cons hi
    have hgd : sub.getD i default = sub[i] := List.getD_eq_getElem _ _ hi
    simp only [msLoop, hgd]
    by_cases hb : b = sub[i]
    · simp only [if_pos hb]
      by_cases hl : i + 1 = sub.length
      · have hnil : sub.drop (i + 1) = [] := by
          rw [hl]; exact List.drop_length sub
        rw [hdrop, hnil]
        simp only [if_pos hl, true_iff]
        rw [← hb]
        exact List.cons_sublist_cons.mpr (List.nil_sublist rest)
      · have hi1 : i + 1 < sub.length := lt_of_le_of_ne hi hl
        simp only [if_neg hl]
        rw [ih (i + 1) hi1, hdrop, ← hb]
        exact List.cons_sublist_cons.symm
    · simp only [if_neg hb]
      rw [ih i hi, hdrop]
      constructor
      · intro h
        exact List.Sublist.cons b h
      · intro h
        cases h with
        | cons _ h2 => exact h2
        | cons₂ => exact absurd rfl hb

theorem match_subsequence_iff_sublist (sequence subsequence : Str) :
    match_subsequence sequence subsequence = true ↔ List.Sublist subsequence sequence := by
  simp only [match_subsequence]
  by_cases h : subsequence.length = 0
  · have : subsequence = [] := List.length_eq_zero.mp h
    subst this
    simp [List.nil_sublist]
  · simp only [if_neg h]
    have hpos : 0 < subsequence.length := Nat.pos_of_ne_zero h
    rw [msLoop_iff_sublist subsequence sequence 0 hpos]
    simp

theorem match_subsequence_checked_eq_some (sequence subsequence : Str) :
    match_subsequence_checked sequence subsequence =
      some (match_subsequence sequence subsequence) := by
  simp only [match_subsequence_checked, match_subsequence]
  by_cases h : subsequence.length = 0
  · simp [h]
  · have hpos : 0 < subsequence.length := Nat.pos_of_ne_zero h
    simp only [if_neg h]
    exact msLoopChecked_eq_some subsequence sequence 0 hpos

/-! ### Lemmas about the trie model -/

theorem Trie1.mem_search (t : Trie1) (key : Str) (i : Nat) :
    i ∈ t.search key ↔ ∃ p ∈ t, p.1 = i ∧ key <+: p.2 := by
  simp only [Trie1.search, List.mem_toFinset, List.mem_map, List.mem_filter]
  constructor
  · rintro ⟨p, ⟨hp, hpre⟩, hfst⟩
    exact ⟨p, hp, hfst, of_decide_eq_true hpre⟩
  · rintro ⟨p, hp, hfst, hpre⟩
    exact ⟨p, ⟨hp, decide_eq_true hpre⟩, hfst⟩

theorem Trie1.not_mem_search_delete (t : Trie1) (id : Nat) (key : Str) :
    id ∉ (t.delete id).search key := by
  rw [Trie1.mem_search]
  rintro ⟨p, hp, hfst, -⟩
  have := List.of_mem_filter hp
  simp only [decide_eq_true_eq] at this
  exact this hfst

theorem Trie1.mem_search_foldl_add (keys : List Str) (tr : Trie1) (id : Nat) (k : Str) (i : Nat) :
    i ∈ (keys.foldl (fun tr2 s => tr2.add id s) tr).search k ↔
      (i = id ∧ ∃ s ∈ keys, k <+: s) ∨ i ∈ tr.search k := by
  induction keys generalizing tr with
  | nil => simp
  | cons s rest ih =>
    rw [List.foldl_cons, ih]
    constructor
    · rintro (⟨rfl, s2, hs2, hpre⟩ | hmem)
      · exact Or.inl ⟨rfl, s2, List.mem_cons_of_mem s hs2, hpre⟩
      · rw [Trie1.mem_search] at hmem
        obtain ⟨p, hp, hfst, hpre⟩ := hmem
        rw [Trie1.add, List.mem_cons] at hp
        rcases hp with rfl | hp
        · exact Or.inl ⟨hfst.symm, s, List.mem_cons_self s rest, hpre⟩
        · exact Or.inr ((Trie1.mem_search tr k i).mpr ⟨p, hp, hfst, hpre⟩)
    · rintro (⟨rfl, s2, hs2, hpre⟩ | hmem)
      · rcases List.mem_cons.mp hs2 with rfl | hs2
        · exact Or.inr ((Trie1.mem_search _ k i).mpr
            ⟨(i, s2), List.mem_cons_self _ _, rfl, hpre⟩)
        · exact Or.inl ⟨rfl, s2, hs2, hpre⟩
      · rw [Trie1.mem_search] at hmem
        obtain ⟨p, hp, hfst, hpre⟩ := hmem
        exact Or.inr ((Trie1.mem_search _ k i).mpr
          ⟨p, List.mem_cons_of_mem _ hp, hfst, hpre⟩)

theorem Trie1.mem_of_mem_search (t : Trie1) (key : Str) (i : Nat)
    (h : i ∈ t.search key) : ∃ p ∈ t, p.1 = i := by
  rw [Trie1.mem_search] at h
  obtain ⟨p, hp, hfst, -⟩ := h
  exact ⟨p, hp, hfst⟩

/-! ### Correctness of the binary-search embedding on canonical item lists -/

theorem bsLoop_canonical (items : List TodoItem)
    (hc : ∀ n, n < items.length → (items.getD n default).index = n) (target : Nat) :
    ∀ fuel left right, left ≤ right → right ≤ items.length → right - left ≤ fuel →
      bsLoop items target fuel left right =
        if left ≤ target ∧ target < right then some target else none := by
  intro fuel
  induction fuel with
  | zero =>
    intro left right hlr hrlen hfuel
    have : left = right := by omega
    subst this
    simp only [bsLoop]
    rw [if_neg]
    omega
  | succ fuel ih =>
    intro left right hlr hrlen hfuel
    by_cases hlt : left < right
    · have hmidlt : left + (right - left) / 2 < right := by omega
      have hmidge : left ≤ left + (right - left) / 2 := by omega
      have hkey : (items.getD (left + (right - left) / 2) default).index =
          left + (right - left) / 2 := hc _ (lt_of_lt_of_le hmidlt hrlen)
      simp only [bsLoop, if_pos hlt, hkey]
      by_cases h1 : left + (right - left) / 2 < target
      · rw [if_pos h1, ih _ _ (by omega) hrlen (by omega)]
        by_cases h2 : left + (right - left) / 2 + 1 ≤ target ∧ target < right
        · rw [if_pos h2, if_pos ⟨by omega, h2.2⟩]
        · rw [if_neg h2, if_neg (by omega)]
      · rw [if_neg h1]
        by_cases h3 : target < left + (right - left) / 2
        · rw [if_pos h3, ih _ _ (by omega) (by omega) (by omega)]
          by_cases h4 : left ≤ target ∧ target < left + (right - left) / 2
          · rw [if_pos h4, if_pos ⟨h4.1, by omega⟩]
          · rw [if_neg h4, if_neg (by omega)]
        · rw [if_neg h3]
          have : target = left + (right - left) / 2 := by omega
          rw [if_pos (by omega), this]
    · have : left = right := by omega
      subst this
      simp only [bsLoop, if_neg hlt]
      rw [if_neg]
      omega

theorem binary_search_by_key_canonical (items : List TodoItem)
    (hc : ∀ n, n < items.length → (items.getD n default).index = n) (target : Nat) :
    binary_search_by_key items target =
      if target < items.length then some target else none := by
  rw [binary_search_by_key,
    bsLoop_canonical items hc target items.length 0 items.length
      (Nat.zero_le _) (le_refl _) (by omega)]
  by_cases h : target < items.length
  · rw [if_pos ⟨Nat.zero_le _, h⟩, if_pos h]
  · rw [if_neg (by omega), if_neg h]

/-! ### Unfolding equations for the store operations -/

theorem pushT_def (tl : TodoList) (d tg : List Str) :
    tl.push d tg =
      ({ top_index := tl.top_index + 1, items := tl.items ++ [⟨tl.top_index, d, tg, false⟩] },
       ⟨tl.top_index, d, tg, false⟩) := rfl

theorem pushTriedo_def (t : TriedoList) (d tg : List Str) :
    t.push d tg =
      ({ top_index := t.top_index + 1,
         items := t.items ++ [⟨t.top_index, d, tg, false⟩],
         words := d.foldl (fun tr s => tr.add t.top_index s) t.words,
         tags := tg.foldl (fun tr s => tr.add t.top_index s) t.tags },
       ⟨t.top_index, d, tg, false⟩) := rfl

theorem doneT_some (tl : TodoList) (idx n : Nat)
    (h : binary_search_by_key tl.items idx = some n) :
    tl.done_with_index idx = ({ tl with items := setDone tl.items n }, some idx) := by
  unfold TodoList.done_with_index
  rw [h]

theorem doneT_none (tl : TodoList) (idx : Nat)
    (h : binary_search_by_key tl.items idx = none) :
    tl.done_with_index idx = (tl, none) := by
  unfold TodoList.done_with_index
  rw [h]

theorem doneTriedo_some (t : TriedoList) (idx n : Nat)
    (h : binary_search_by_key t.items idx = some n) :
    t.done_with_index idx =
      ({ t with words := t.words.delete idx, items := setDone t.items n }, some idx) := by
  unfold TriedoList.done_with_index
  rw [h]

theorem doneTriedo_none (t : TriedoList) (idx : Nat)
    (h : binary_search_by_key t.items idx = none) :
    t.done_with_index idx = ({ t with words := t.words.delete idx }, none) := by
  unfold TriedoList.done_with_index
  rw [h]

/-! ### Preservation of the positional invariant -/

theorem itemsCanonical_push (top : Nat) (items : List TodoItem) (item : TodoItem)
    (hc : ItemsCanonical top items) (hidx : item.index = top) :
    ItemsCanonical (top + 1) (items ++ [item]) := by
  obtain ⟨hlen, hget⟩ := hc
  refine ⟨by simp [hlen], ?_⟩
  intro n hn
  simp only [List.length_append, List.length_singleton] at hn
  have hn2 : n < (items ++ [item]).length := by simp; omega
  rw [List.getD_eq_getElem _ _ hn2]
  by_cases h : n < items.length
  · rw [List.getElem_append_left h]
    have := hget n h
    rwa [List.getD_eq_getElem _ _ h] at this
  · have heq : n = items.length := by omega
    subst heq
    rw [List.getElem_concat_length]
    · omega
    · rfl

theorem itemsCanonical_setDone (top : Nat) (items : List TodoItem) (n : Nat)
    (hc : ItemsCanonical top items) : ItemsCanonical top (setDone items n) := by
  obtain ⟨hlen, hget⟩ := hc
  refine ⟨by simpa [setDone] using hlen, ?_⟩
  intro m hm
  simp only [setDone, List.length_set] at hm
  have hm2 : m < (items.set n { items.getD n default with done := true }).length := by
    simpa using hm
  rw [setDone, List.getD_eq_getElem _ _ hm2]
  by_cases h : n = m
  · subst h
    rw [List.getElem_set_self]
    show (items.getD n default).index = n
    exact hget n hm
  · rw [List.getElem_set_ne h]
    have := hget m hm
    rwa [List.getD_eq_getElem _ _ hm] at this

theorem reachableT_canonical (tl : TodoList) (h : ReachableT tl) :
    ItemsCanonical tl.top_index tl.items := by
  induction h with
  | new => exact ⟨rfl, fun n hn => by simp [TodoList.new] at hn⟩
  | push tl d tg h ih =>
    rw [pushT_def]
    exact itemsCanonical_push _ _ _ ih rfl
  | done tl idx h ih =>
    rcases hbs : binary_search_by_key tl.items idx with _ | n
    · rw [doneT_none tl idx hbs]
      exact ih
    · rw [doneT_some tl idx n hbs]
      exact itemsCanonical_setDone _ _ _ ih

theorem Trie1.mem_foldl_add (keys : List Str) (tr : Trie1) (id : Nat) (p : Nat × Str) :
    p ∈ keys.foldl (fun tr2 s => tr2.add id s) tr ↔ (p.1 = id ∧ p.2 ∈ keys) ∨ p ∈ tr := by
  induction keys generalizing tr with
  | nil => simp
  | cons s rest ih =>
    rw [List.foldl_cons, ih]
    simp only [Trie1.add, List.mem_cons, Prod.ext_iff]
    tauto

theorem reachable_inv (t : TriedoList) (h : Reachable t) : TriedoInv t := by
  induction h with
  | new =>
    refine ⟨⟨rfl, fun n hn => by simp [TriedoList.new] at hn⟩, ?_, ?_⟩ <;>
      · intro p hp
        simp [TriedoList.new, Trie1.new] at hp
  | push t d tg h ih =>
    obtain ⟨hcanon, hw, htg⟩ := ih
    rw [pushTriedo_def]
    dsimp only
    refine ⟨itemsCanonical_push _ _ _ hcanon rfl, ?_, ?_⟩
    · intro p hp
      show p.1 < t.top_index + 1
      rcases (Trie1.mem_foldl_add d t.words t.top_index p).mp hp with ⟨h1, -⟩ | hmem
      · omega
      · have := hw p hmem
        omega
    · intro p hp
      show p.1 < t.top_index + 1
      rcases (Trie1.mem_foldl_add tg t.tags t.top_index p).mp hp with ⟨h1, -⟩ | hmem
      · omega
      · have := htg p hmem
        omega
  | done t idx h ih =>
    obtain ⟨hcanon, hw, htg⟩ := ih
    rcases hbs : binary_search_by_key t.items idx with _ | n
    · rw [doneTriedo_none t idx hbs]
      exact ⟨hcanon, fun p hp => hw p (List.mem_of_mem_filter hp), htg⟩
    · rw [doneTriedo_some t idx n hbs]
      exact ⟨itemsCanonical_setDone _ _ _ hcanon,
        fun p hp => hw p (List.mem_of_mem_filter hp), htg⟩

theorem exists_item_iff_lt (top : Nat) (items : List TodoItem)
    (hc : ItemsCanonical top items) (idx : Nat) :
    (∃ item ∈ items, item.index = idx) ↔ idx < items.length := by
  obtain ⟨hlen, hget⟩ := hc
  constructor
  · rintro ⟨item, hmem, hidx⟩
    obtain ⟨n, hn, rfl⟩ := List.mem_iff_getElem.mp hmem
    have := hget n hn
    rw [List.getD_eq_getElem _ _ hn] at this
    omega
  · intro hlt
    refine ⟨items.getD idx default, ?_, hget idx hlt⟩
    rw [List.getD_eq_getElem _ _ hlt]
    exact List.getElem_mem hlt

/-! ### Lemmas about the intersection fold of `TriedoList::search` -/

theorem mem_foldl_inter (t : TriedoList) (rest : List SearchWordOrTag) (acc : Finset Nat)
    (i : Nat) (h : i ∈ rest.foldl (fun indices p => indices ∩ paramSearch t p) acc) :
    i ∈ acc ∧ ∀ p ∈ rest, i ∈ paramSearch t p := by
  induction rest generalizing acc with
  | nil => simpa using h
  | cons q qs ih =>
    rw [List.foldl_cons] at h
    obtain ⟨hacc, hall⟩ := ih _ h
    have hmem := Finset.mem_inter.mp hacc
    refine ⟨hmem.1, fun p hp => ?_⟩
    rcases List.mem_cons.mp hp with rfl | hp2
    · exact hmem.2
    · exact hall p hp2

theorem mem_searchIds (t : TriedoList) (sp : SearchParams) (i : Nat)
    (h : i ∈ t.searchIds sp) : ∀ p ∈ sp.params, i ∈ paramSearch t p := by
  cases sp with
  | mk params =>
    cases params with
    | nil => simp [TriedoList.searchIds] at h
    | cons first rest =>
      obtain ⟨hacc, hall⟩ := mem_foldl_inter t rest (paramSearch t first) i h
      intro p hp
      rcases List.mem_cons.mp hp with rfl | hp2
      · exact hacc
      · exact hall p hp2

theorem paramSearch_lt (t : TriedoList) (hinv : TriedoInv t) (p : SearchWordOrTag)
    (i : Nat) (h : i ∈ paramSearch t p) : i < t.items.length := by
  obtain ⟨⟨hlen, -⟩, hw, htg⟩ := hinv
  cases p with
  | RawWord w =>
    obtain ⟨q, hq, hfst⟩ := Trie1.mem_of_mem_search t.words w i h
    have := hw q hq
    omega
  | RawTag s =>
    obtain ⟨q, hq, hfst⟩ := Trie1.mem_of_mem_search t.tags s i h
    have := htg q hq
    omega

theorem searchIds_lt (t : TriedoList) (hinv : TriedoInv t) (sp : SearchParams)
    (i : Nat) (h : i ∈ t.searchIds sp) : i < t.items.length := by
  cases sp with
  | mk params =>
    cases params with
    | nil => simp [TriedoList.searchIds] at h
    | cons first rest =>
      exact paramSearch_lt t hinv first i
        (mem_searchIds t ⟨first :: rest⟩ i h first (List.mem_cons_self _ _))

theorem image_getD_inter (t : TriedoList) (hinv : TriedoInv t) (S T : Finset Nat)
    (hS : ∀ i ∈ S, i < t.items.length) (hT : ∀ i ∈ T, i < t.items.length) :
    (S ∩ T).image (fun i => t.items.getD i default) =
      S.image (fun i => t.items.getD i default) ∩ T.image (fun i => t.items.getD i default) := by
  apply Finset.ext
  intro x
  simp only [Finset.mem_image, Finset.mem_inter]
  constructor
  · rintro ⟨i, hi, rfl⟩
    exact ⟨⟨i, hi.1, rfl⟩, ⟨i, hi.2, rfl⟩⟩
  · rintro ⟨⟨i, hiS, rfl⟩, ⟨j, hjT, hji⟩⟩
    have hi := hS i hiS
    have hj := hT j hjT
    have hidx : (t.items.getD j default).index = j := hinv.1.2 j hj
    have hidx2 : (t.items.getD i default).index = i := hinv.1.2 i hi
    have heq : j = i := by rw [hji] at hidx; omega
    subst heq
    exact ⟨j, ⟨hiS, hjT⟩, rfl⟩

/-! ### Behaviour of `done_with_index` on canonical stores -/

theorem doneT_spec (tl : TodoList) (hc : ItemsCanonical tl.top_index tl.items)
    (idx : Nat) :
    ((∃ item ∈ tl.items, item.index = idx) →
       (tl.done_with_index idx).2 = some idx ∧
       ∃ item ∈ (tl.done_with_index idx).1.items, item.index = idx ∧ item.done = true) ∧
    ((¬ ∃ item ∈ tl.items, item.index = idx) → (tl.done_with_index idx).2 = none) := by
  have hbs := binary_search_by_key_canonical tl.items hc.2 idx
  rw [exists_item_iff_lt _ _ hc idx]
  by_cases hlt : idx < tl.items.length
  · rw [if_pos hlt] at hbs
    rw [doneT_some tl idx idx hbs]
    refine ⟨fun _ => ⟨rfl, ?_⟩, fun hcon => absurd hlt hcon⟩
    have hlt2 : idx < (setDone tl.items idx).length := by simpa [setDone] using hlt
    refine ⟨(setDone tl.items idx).getD idx default, ?_, ?_, ?_⟩
    · rw [List.getD_eq_getElem _ _ hlt2]
      exact List.getElem_mem hlt2
    · rw [List.getD_eq_getElem _ _ hlt2]
      simp only [setDone]
      rw [List.getElem_set_self]
      exact hc.2 idx hlt
    · rw [List.getD_eq_getElem _ _ hlt2]
      simp only [setDone]
      rw [List.getElem_set_self]
  · rw [if_neg hlt] at hbs
    rw [doneT_none tl idx hbs]
    exact ⟨fun hcon => absurd hcon hlt, fun _ => rfl⟩

theorem doneTriedo_spec (t : TriedoList) (hc : ItemsCanonical t.top_index t.items)
    (idx : Nat) :
    ((∃ item ∈ t.items, item.index = idx) →
       (t.done_with_index idx).2 = some idx ∧
       ∃ item ∈ (t.done_with_index idx).1.items, item.index = idx ∧ item.done = true) ∧
    ((¬ ∃ item ∈ t.items, item.index = idx) → (t.done_with_index idx).2 = none) := by
  have hbs := binary_search_by_key_canonical t.items hc.2 idx
  rw [exists_item_iff_lt _ _ hc idx]
  by_cases hlt : idx < t.items.length
  · rw [if_pos hlt] at hbs
    rw [doneTriedo_some t idx idx hbs]
    refine ⟨fun _ => ⟨rfl, ?_⟩, fun hcon => absurd hlt hcon⟩
    have hlt2 : idx < (setDone t.items idx).length := by simpa [setDone] using hlt
    refine ⟨(setDone t.items idx).getD idx default, ?_, ?_, ?_⟩
    · rw [List.getD_eq_getElem _ _ hlt2]
      exact List.getElem_mem hlt2
    · rw [List.getD_eq_getElem _ _ hlt2]
      simp only [setDone]
      rw [List.getElem_set_self]
      exact hc.2 idx hlt
    · rw [List.getD_eq_getElem _ _ hlt2]
      simp only [setDone]
      rw [List.getElem_set_self]
  · rw [if_neg hlt] at hbs
    rw [doneTriedo_none t idx hbs]
    exact ⟨fun hcon => absurd hcon hlt, fun _ => rfl⟩

/-! ### Idempotence of the completion mutations -/

theorem Trie1.delete_idem (t : Trie1) (id : Nat) :
    (t.delete id).delete id = t.delete id := by
  simp only [Trie1.delete]
  rw [List.filter_eq_self]
  intro a ha
  exact (List.mem_filter.mp ha).2

theorem getD_setDone_self (items : List TodoItem) (n : Nat) (hn : n < items.length) :
    (setDone items n).getD n default = { items.getD n default with done := true } := by
  have hn2 : n < (setDone items n).length := by simpa [setDone] using hn
  rw [List.getD_eq_getElem _ _ hn2]
  simp only [setDone]
  rw [List.getElem_set_self]

theorem setDone_idem (items : List TodoItem) (n : Nat) (hn : n < items.length) :
    setDone (setDone items n) n = setDone items n := by
  conv_lhs => rw [setDone, getD_setDone_self items n hn]
  simp only [setDone]
  rw [List.set_set]

/-! ### Identifier sequences under repeated push -/

theorem pushSeqT_indices (calls : List (List Str × List Str)) (tl : TodoList) :
    (TodoList.pushSeq tl calls).2.map TodoItem.index =
      List.range' tl.top_index calls.length := by
  induction calls generalizing tl with
  | nil => rfl
  | cons c cs ih =>
    show (tl.push c.1 c.2).2.index ::
        (TodoList.pushSeq (tl.push c.1 c.2).1 cs).2.map TodoItem.index = _
    rw [ih, List.length_cons, List.range'_succ]
    rfl

theorem pushSeqTriedo_indices (calls : List (List Str × List Str)) (t : TriedoList) :
    (TriedoList.pushSeq t calls).2.map TodoItem.index =
      List.range' t.top_index calls.length := by
  induction calls generalizing t with
  | nil => rfl
  | cons c cs ih =>
    show (t.push c.1 c.2).2.index ::
        (TriedoList.pushSeq (t.push c.1 c.2).1 cs).2.map TodoItem.index = _
    rw [ih, List.length_cons, List.range'_succ]
    rfl

/-! ### The claims -/

/-- C1, counterexample: the baseline `TodoList::search` does not return an
empty result on an empty term list; with one not-done item stored,
`search([])` returns that item (the Rust loop over zero parameters never
hits a `continue`, so every not-done item is pushed to the results). -/
theorem c1_counterexample :
    ¬ ((TodoList.new.push [['a']] []).1.search ⟨[]⟩ = []) := by decide

/-- C1, amended: a search with an empty term list returns an empty result on
the indexed engine `TriedoList::search` in every state; the baseline
`TodoList::search` instead returns exactly the not-done items on an empty
term list, so its result is empty only when no not-done item is stored. -/
theorem c1_empty_search :
    (∀ t : TriedoList, t.search ⟨[]⟩ = ∅) ∧
    (∀ tl : TodoList, tl.search ⟨[]⟩ = tl.items.filter (fun item => !item.done)) := by
  constructor
  · intro t
    rfl
  · intro tl
    simp [TodoList.search]

/-- C4: starting from a fresh store, the identifiers of the items returned by
any sequence of push calls are exactly 0, 1, 2, … in strict creation order,
for both `TodoList` and `TriedoList` (hence unique and never reused). -/
theorem c4_identifiers (calls : List (List Str × List Str)) :
    (TodoList.pushSeq TodoList.new calls).2.map TodoItem.index =
        List.range calls.length ∧
    (TriedoList.pushSeq TriedoList.new calls).2.map TodoItem.index =
        List.range calls.length := by
  rw [pushSeqT_indices, pushSeqTriedo_indices, List.range_eq_range']
  exact ⟨rfl, rfl⟩

/-- C7: for a non-empty term list, the baseline `TodoList::search` returns
exactly the stored items whose done flag is false and for which every
word-term is a (not necessarily contiguous) subsequence of some word of the
description and every tag-term a subsequence of some tag. -/
theorem c7_baseline_search (tl : TodoList) (sp : SearchParams) (item : TodoItem)
    (_hne : sp.params ≠ []) :
    item ∈ tl.search sp ↔
      item ∈ tl.items ∧ item.done = false ∧
        ∀ p ∈ sp.params,
          match p with
          | SearchWordOrTag.RawWord sw => ∃ w ∈ item.description, List.Sublist sw w
          | SearchWordOrTag.RawTag st => ∃ s ∈ item.tags, List.Sublist st s := by
  simp only [TodoList.search, List.mem_filter]
  constructor
  · rintro ⟨hmem, hcond⟩
    rw [Bool.and_eq_true] at hcond
    obtain ⟨hdone, hall⟩ := hcond
    refine ⟨hmem, by simpa using hdone, ?_⟩
    intro p hp
    have hmatch := (List.all_eq_true.mp hall) p hp
    cases p with
    | RawWord sw =>
      simp only [itemMatches] at hmatch
      obtain ⟨w, hw, hms⟩ := List.any_eq_true.mp hmatch
      exact ⟨w, hw, (match_subsequence_iff_sublist w sw).mp hms⟩
    | RawTag st =>
      simp only [itemMatches] at hmatch
      obtain ⟨s, hs, hms⟩ := List.any_eq_true.mp hmatch
      exact ⟨s, hs, (match_subsequence_iff_sublist s st).mp hms⟩
  · rintro ⟨hmem, hdone, hall⟩
    refine ⟨hmem, ?_⟩
    rw [Bool.and_eq_true]
    refine ⟨by simp [hdone], ?_⟩
    rw [List.all_eq_true]
    intro p hp
    have hterm := hall p hp
    cases p with
    | RawWord sw =>
      obtain ⟨w, hw, hsub⟩ := hterm
      simp only [itemMatches]
      exact List.any_eq_true.mpr ⟨w, hw, (match_subsequence_iff_sublist w sw).mpr hsub⟩
    | RawTag st =>
      obtain ⟨s, hs, hsub⟩ := hterm
      simp only [itemMatches]
      exact List.any_eq_true.mpr ⟨s, hs, (match_subsequence_iff_sublist s st).mpr hsub⟩

/-- C7, witness: the theorem applied to a concrete store, a two-term query and
the item the query matches. -/
theorem c7_witness :
    (⟨0, [['a','b','c']], [['x','y']], false⟩ : TodoItem) ∈
        (TodoList.new.push [['a','b','c']] [['x','y']]).1.items ∧
      (⟨0, [['a','b','c']], [['x','y']], false⟩ : TodoItem).done = false ∧
      ∀ p ∈ [SearchWordOrTag.RawWord ['a','c'], SearchWordOrTag.RawTag ['y']],
        match p with
        | SearchWordOrTag.RawWord sw =>
          ∃ w ∈ (⟨0, [['a','b','c']], [['x','y']], false⟩ : TodoItem).description,
            List.Sublist sw w
        | SearchWordOrTag.RawTag st =>
          ∃ s ∈ (⟨0, [['a','b','c']], [['x','y']], false⟩ : TodoItem).tags,
            List.Sublist st s :=
  (c7_baseline_search (TodoList.new.push [['a','b','c']] [['x','y']]).1
    ⟨[SearchWordOrTag.RawWord ['a','c'], SearchWordOrTag.RawTag ['y']]⟩
    ⟨0, [['a','b','c']], [['x','y']], false⟩ (by decide)).mp (by decide)

/-- C8: push always succeeds and returns the item built from the current
counter value with `done = false`; it appends exactly that item (leaving all
previously stored items unchanged), advances the counter by one, and records
the identifier in the word index under every word of the description and in
the tag index under every tag. Both `TriedoList::push` and `TodoList::push`
are covered (the latter has no indexes). -/
theorem c8_push_effect (t : TriedoList) (tl : TodoList) (d tg : List Str) :
    ((t.push d tg).2 = ⟨t.top_index, d, tg, false⟩ ∧
     (t.push d tg).1.items = t.items ++ [(t.push d tg).2] ∧
     (t.push d tg).1.top_index = t.top_index + 1 ∧
     (∀ w ∈ d, t.top_index ∈ (t.push d tg).1.words.search w) ∧
     (∀ s ∈ tg, t.top_index ∈ (t.push d tg).1.tags.search s)) ∧
    ((tl.push d tg).2 = ⟨tl.top_index, d, tg, false⟩ ∧
     (tl.push d tg).1.items = tl.items ++ [(tl.push d tg).2] ∧
     (tl.push d tg).1.top_index = tl.top_index + 1) := by
  refine ⟨⟨rfl, rfl, rfl, ?_, ?_⟩, rfl, rfl, rfl⟩
  · intro w hw
    show t.top_index ∈ (d.foldl (fun tr s => tr.add t.top_index s) t.words).search w
    rw [Trie1.mem_search_foldl_add]
    exact Or.inl ⟨rfl, w, hw, ⟨[], List.append_nil w⟩⟩
  · intro s hs
    show t.top_index ∈ (tg.foldl (fun tr s2 => tr.add t.top_index s2) t.tags).search s
    rw [Trie1.mem_search_foldl_add]
    exact Or.inl ⟨rfl, s, hs, ⟨[], List.append_nil s⟩⟩

/-- C8, witness: the push effect evaluated at a concrete store and item. -/
theorem c8_witness :
    (TriedoList.new.push [['a']] [['x']]).2 = ⟨0, [['a']], [['x']], false⟩ ∧
    0 ∈ (TriedoList.new.push [['a']] [['x']]).1.words.search ['a'] :=
  ⟨(c8_push_effect TriedoList.new TodoList.new [['a']] [['x']]).1.1,
   (c8_push_effect TriedoList.new TodoList.new [['a']] [['x']]).1.2.2.2.1 ['a']
     (List.mem_singleton.mpr rfl)⟩

/-- C9: in every reachable state of either store, the counter equals the
number of stored items and the item at position `n` of the items vector has
identifier `n` — the invariant that makes the binary search of
`done_with_index` and the positional indexing `self.items[*index as usize]`
of `TriedoList::search` correct. -/
theorem c9_positional_invariant (tl : TodoList) (t : TriedoList)
    (hT : ReachableT tl) (h : Reachable t) :
    ItemsCanonical tl.top_index tl.items ∧ ItemsCanonical t.top_index t.items :=
  ⟨reachableT_canonical tl hT, (reachable_inv t h).1⟩

/-- C9, witness: the invariant instantiated at concrete reachable states
(its binder-free counter–length component). -/
theorem c9_witness :
    (TodoList.new.push [['a']] []).1.top_index =
        (TodoList.new.push [['a']] []).1.items.length ∧
    (TriedoList.new.push [['a']] [['x']]).1.top_index =
        (TriedoList.new.push [['a']] [['x']]).1.items.length :=
  ⟨(c9_positional_invariant (TodoList.new.push [['a']] []).1
      (TriedoList.new.push [['a']] [['x']]).1
      (ReachableT.push TodoList.new [['a']] [] ReachableT.new)
      (Reachable.push TriedoList.new [['a']] [['x']] Reachable.new)).1.1,
   (c9_positional_invariant (TodoList.new.push [['a']] []).1
      (TriedoList.new.push [['a']] [['x']]).1
      (ReachableT.push TodoList.new [['a']] [] ReachableT.new)
      (Reachable.push TriedoList.new [['a']] [['x']] Reachable.new)).2.1⟩

/-- C10: `match_subsequence` is total and its unchecked byte access is always
in bounds: the instrumented variant, which returns `none` the moment an
out-of-bounds access of the subsequence would occur, always returns `some` of
the unchecked result; and an empty subsequence returns true immediately. -/
theorem c10_match_subsequence_safe (sequence subsequence : Str) :
    match_subsequence_checked sequence subsequence =
        some (match_subsequence sequence subsequence) ∧
    match_subsequence sequence [] = true :=
  ⟨match_subsequence_checked_eq_some sequence subsequence, rfl⟩

/-! ### Completing twice produces the same pair both times -/

theorem doneT_twice (tl : TodoList) (idx : Nat)
    (hc : ItemsCanonical tl.top_index tl.items)
    (hex : ∃ item ∈ tl.items, item.index = idx) :
    tl.done_with_index idx = ({ tl with items := setDone tl.items idx }, some idx) ∧
    ({ tl with items := setDone tl.items idx } : TodoList).done_with_index idx =
      ({ tl with items := setDone tl.items idx }, some idx) := by
  have hlt : idx < tl.items.length := (exists_item_iff_lt _ _ hc idx).mp hex
  have hbs := binary_search_by_key_canonical tl.items hc.2 idx
  rw [if_pos hlt] at hbs
  have hc1 : ItemsCanonical tl.top_index (setDone tl.items idx) :=
    itemsCanonical_setDone _ _ _ hc
  have hlt1 : idx < (setDone tl.items idx).length := by simpa [setDone] using hlt
  have hbs1 := binary_search_by_key_canonical (setDone tl.items idx) hc1.2 idx
  rw [if_pos hlt1] at hbs1
  refine ⟨doneT_some tl idx idx hbs, ?_⟩
  have h2 := doneT_some { tl with items := setDone tl.items idx } idx idx hbs1
  rw [h2]
  show (TodoList.mk tl.top_index (setDone (setDone tl.items idx) idx), some idx) = _
  rw [setDone_idem tl.items idx hlt]

theorem doneTriedo_twice (t : TriedoList) (idx : Nat)
    (hc : ItemsCanonical t.top_index t.items)
    (hex : ∃ item ∈ t.items, item.index = idx) :
    t.done_with_index idx =
      ({ t with words := t.words.delete idx, items := setDone t.items idx }, some idx) ∧
    ({ t with words := t.words.delete idx, items := setDone t.items idx } :
        TriedoList).done_with_index idx =
      ({ t with words := t.words.delete idx, items := setDone t.items idx }, some idx) := by
  have hlt : idx < t.items.length := (exists_item_iff_lt _ _ hc idx).mp hex
  have hbs := binary_search_by_key_canonical t.items hc.2 idx
  rw [if_pos hlt] at hbs
  have hc1 : ItemsCanonical t.top_index (setDone t.items idx) :=
    itemsCanonical_setDone _ _ _ hc
  have hlt1 : idx < (setDone t.items idx).length := by simpa [setDone] using hlt
  have hbs1 := binary_search_by_key_canonical (setDone t.items idx) hc1.2 idx
  rw [if_pos hlt1] at hbs1
  refine ⟨doneTriedo_some t idx idx hbs, ?_⟩
  have h2 := doneTriedo_some
    { t with words := t.words.delete idx, items := setDone t.items idx } idx idx hbs1
  rw [h2]
  show (TriedoList.mk t.top_index (setDone (setDone t.items idx) idx)
      ((t.words.delete idx).delete idx) t.tags, some idx) = _
  rw [setDone_idem t.items idx hlt, Trie1.delete_idem]

/-- C2: on a reachable `TriedoList`, completing an existing identifier removes
it from the word index and leaves the tag index completely unchanged: the
identifier afterwards belongs to no word-trie result set (hence to no search
whose terms include a word term), while tag-trie lookups are exactly as
before the call. -/
theorem c2_done_frame (t : TriedoList) (idx : Nat) (_h : Reachable t)
    (_hex : ∃ item ∈ t.items, item.index = idx) :
    (∀ key, idx ∉ ((t.done_with_index idx).1).words.search key) ∧
    ((t.done_with_index idx).1).tags = t.tags ∧
    (∀ sp : SearchParams, (∃ s, SearchWordOrTag.RawWord s ∈ sp.params) →
      idx ∉ ((t.done_with_index idx).1).searchIds sp) ∧
    (∀ key, ((t.done_with_index idx).1).tags.search key = t.tags.search key) := by
  have hwords : ((t.done_with_index idx).1).words = t.words.delete idx := by
    rcases hbs : binary_search_by_key t.items idx with _ | n
    · rw [doneTriedo_none t idx hbs]
    · rw [doneTriedo_some t idx n hbs]
  have htags : ((t.done_with_index idx).1).tags = t.tags := by
    rcases hbs : binary_search_by_key t.items idx with _ | n
    · rw [doneTriedo_none t idx hbs]
    · rw [doneTriedo_some t idx n hbs]
  refine ⟨?_, htags, ?_, fun key => by rw [htags]⟩
  · intro key
    rw [hwords]
    exact Trie1.not_mem_search_delete t.words idx key
  · rintro sp ⟨s, hs⟩ hmem
    have hws := mem_searchIds ((t.done_with_index idx).1) sp idx hmem
      (SearchWordOrTag.RawWord s) hs
    have hws2 : idx ∈ ((t.done_with_index idx).1).words.search s := hws
    rw [hwords] at hws2
    exact Trie1.not_mem_search_delete t.words idx s hws2

/-- C2, witness: the frame effect evaluated on a concrete store holding one
item with a word and a tag. -/
theorem c2_witness :
    0 ∉ (((TriedoList.new.push [['a']] [['x']]).1.done_with_index 0).1).words.search ['a'] ∧
    (((TriedoList.new.push [['a']] [['x']]).1.done_with_index 0).1).tags =
      (TriedoList.new.push [['a']] [['x']]).1.tags :=
  ⟨(c2_done_frame (TriedoList.new.push [['a']] [['x']]).1 0
      (Reachable.push TriedoList.new [['a']] [['x']] Reachable.new) (by decide)).1 ['a'],
   (c2_done_frame (TriedoList.new.push [['a']] [['x']]).1 0
      (Reachable.push TriedoList.new [['a']] [['x']] Reachable.new) (by decide)).2.1⟩

/-- C3: on every (reachable — all constructible states are reachable, the
fields being private) `TriedoList`, the set of items returned by a two-term
search is the intersection of the sets returned by the two single-term
searches. -/
theorem c3_intersection (t : TriedoList) (A B : SearchWordOrTag) (h : Reachable t) :
    t.search ⟨[A, B]⟩ = t.search ⟨[A]⟩ ∩ t.search ⟨[B]⟩ := by
  have hinv := reachable_inv t h
  have hIds : t.searchIds ⟨[A, B]⟩ = paramSearch t A ∩ paramSearch t B := rfl
  have hA : t.searchIds ⟨[A]⟩ = paramSearch t A := rfl
  have hB : t.searchIds ⟨[B]⟩ = paramSearch t B := rfl
  simp only [TriedoList.search]
  rw [hIds, hA, hB]
  exact image_getD_inter t hinv (paramSearch t A) (paramSearch t B)
    (fun i hi => paramSearch_lt t hinv A i hi) (fun i hi => paramSearch_lt t hinv B i hi)

/-- C3, witness: the intersection law evaluated on a concrete store and a
word term paired with a tag term. -/
theorem c3_witness :
    (TriedoList.new.push [['b','u','y']] [['e']]).1.search
        ⟨[SearchWordOrTag.RawWord ['b'], SearchWordOrTag.RawTag ['e']]⟩ =
      (TriedoList.new.push [['b','u','y']] [['e']]).1.search
          ⟨[SearchWordOrTag.RawWord ['b']]⟩ ∩
        (TriedoList.new.push [['b','u','y']] [['e']]).1.search
          ⟨[SearchWordOrTag.RawTag ['e']]⟩ :=
  c3_intersection (TriedoList.new.push [['b','u','y']] [['e']]).1
    (SearchWordOrTag.RawWord ['b']) (SearchWordOrTag.RawTag ['e'])
    (Reachable.push TriedoList.new [['b','u','y']] [['e']] Reachable.new)

/-- C5: on every reachable store of either kind, `done_with_index(i)` returns
`Some(i)` and sets the item's done flag when an item with identifier `i`
exists, and returns `None` when no such item exists. -/
theorem c5_done_result (tl : TodoList) (t : TriedoList) (idx : Nat)
    (hT : ReachableT tl) (h : Reachable t) :
    (((∃ item ∈ tl.items, item.index = idx) →
        (tl.done_with_index idx).2 = some idx ∧
        ∃ item ∈ (tl.done_with_index idx).1.items, item.index = idx ∧ item.done = true) ∧
      ((¬ ∃ item ∈ tl.items, item.index = idx) → (tl.done_with_index idx).2 = none)) ∧
    (((∃ item ∈ t.items, item.index = idx) →
        (t.done_with_index idx).2 = some idx ∧
        ∃ item ∈ (t.done_with_index idx).1.items, item.index = idx ∧ item.done = true) ∧
      ((¬ ∃ item ∈ t.items, item.index = idx) → (t.done_with_index idx).2 = none)) :=
  ⟨doneT_spec tl (reachableT_canonical tl hT) idx,
   doneTriedo_spec t (reachable_inv t h).1 idx⟩

/-- C5, witness: completing identifier 0 on a one-item store returns
`some 0`; completing identifier 1 there returns `none`. -/
theorem c5_witness :
    ((TodoList.new.push [['a']] []).1.done_with_index 0).2 = some 0 ∧
    ((TriedoList.new.push [['a']] []).1.done_with_index 1).2 = none :=
  ⟨((c5_done_result (TodoList.new.push [['a']] []).1
        (TriedoList.new.push [['a']] []).1 0
        (ReachableT.push TodoList.new [['a']] [] ReachableT.new)
        (Reachable.push TriedoList.new [['a']] [] Reachable.new)).1.1 (by decide)).1,
   (c5_done_result (TodoList.new.push [['a']] []).1
        (TriedoList.new.push [['a']] []).1 1
        (ReachableT.push TodoList.new [['a']] [] ReachableT.new)
        (Reachable.push TriedoList.new [['a']] [] Reachable.new)).2.2 (by decide)⟩

/-- C6, counterexample: the second completion of the same existing identifier
does not return the absent signal — the item stays in the vector, so the
binary search finds it again and both calls return the identifier. -/
theorem c6_counterexample :
    ((((TodoList.new.push [['a']] []).1.done_with_index 0).1.done_with_index 0).2 = some 0) ∧
    ((((TriedoList.new.push [['a']] []).1.done_with_index 0).1.done_with_index 0).2 = some 0) := by
  decide

/-- C6, amended: completion is idempotent in the sense that calling
`done_with_index` twice on an existing identifier returns the identifier both
times (an idempotent repeat, not the absent signal), never an error, and the
second call does not change the store further. -/
theorem c6_done_idempotent (tl : TodoList) (t : TriedoList) (idx : Nat)
    (hT : ReachableT tl) (h : Reachable t)
    (hexT : ∃ item ∈ tl.items, item.index = idx)
    (hex : ∃ item ∈ t.items, item.index = idx) :
    ((tl.done_with_index idx).2 = some idx ∧
     (((tl.done_with_index idx).1).done_with_index idx).2 = some idx ∧
     (((tl.done_with_index idx).1).done_with_index idx).1 = (tl.done_with_index idx).1) ∧
    ((t.done_with_index idx).2 = some idx ∧
     (((t.done_with_index idx).1).done_with_index idx).2 = some idx ∧
     (((t.done_with_index idx).1).done_with_index idx).1 = (t.done_with_index idx).1) := by
  obtain ⟨e1, e2⟩ := doneT_twice tl idx (reachableT_canonical tl hT) hexT
  obtain ⟨f1, f2⟩ := doneTriedo_twice t idx (reachable_inv t h).1 hex
  refine ⟨⟨?_, ?_, ?_⟩, ?_, ?_, ?_⟩ <;> simp [e1, e2, f1, f2]

/-- C6, witness: both completions of identifier 0 on a concrete one-item
store return `some 0`. -/
theorem c6_witness :
    ((TodoList.new.push [['a']] []).1.done_with_index 0).2 = some 0 ∧
    ((((TriedoList.new.push [['a']] []).1.done_with_index 0).1.done_with_index 0).2 = some 0) :=
  ⟨(c6_done_idempotent (TodoList.new.push [['a']] []).1
      (TriedoList.new.push [['a']] []).1 0
      (ReachableT.push TodoList.new [['a']] [] ReachableT.new)
      (Reachable.push TriedoList.new [['a']] [] Reachable.new)
      (by decide) (by decide)).1.1,
   (c6_done_idempotent (TodoList.new.push [['a']] []).1
      (TriedoList.new.push [['a']] []).1 0
      (ReachableT.push TodoList.new [['a']] [] ReachableT.new)
      (Reachable.push TriedoList.new [['a']] [] Reachable.new)
      (by decide) (by decide)).2.2.1⟩
